import Mathlib

/-!
Verification of the `obf` constant/variable obfuscation header (src/obfuscate.h).

The source is a C++ header that builds, at compile time, a randomized chain of
reversible integer transformations ("injections") together with the inverse
chain ("surjections").  The development below is a shallow embedding of the
arithmetic core of that header:

* the compile-time PRNG and per-site seed derivation,
* the weighted random choice helpers and the budget splitter,
* the modular-inverse routine used by the multiply-by-odd strategy,
* the six injection strategies (versions 0-5) as a tree of transformations,
* the leaf "literal context" with the rolling invariant counter,
* the user-facing variable wrapper's post-decrement operator.

Machine integers (uint8_t..uint64_t) are modelled as `Nat` together with
explicit reduction `% 2 ^ w`; `double` arithmetic in the budget splitter is
modelled as exact real arithmetic, under which truncating `raw * (L / S)`
to an integer is exactly Nat floor division `raw * L / S`.  Fallible code
(assertions, unreachable branches) is modelled with `Option`.
-/

/-- Number of bits in the 64-bit seed type `OBFSEED`. -/
def OBFSEED_BITS : Nat := 64

/-- The linear congruential compile-time PRNG (`obf_compile_time_prng`):
`ret = 6364136223846793005 * ret + 1442695040888963407` on `uint64_t`,
applied `iteration` times to `seed`. -/
def obf_compile_time_prng (seed : Nat) : Nat → Nat
  | 0 => seed
  | n + 1 =>
    (6364136223846793005 * obf_compile_time_prng seed n + 1442695040888963407) % 2 ^ 64

/-- Per-site seed derivation (`obf_seed_from_file_line`): XOR the build seed
with the line number, fold every byte of the file name with
`ret = ((ret << 5) + ret) + byte` on `uint64_t`, then apply one PRNG step. -/
def obf_seed_from_file_line (buildSeed : Nat) (file : List Nat) (line : Nat) : Nat :=
  let ret := (buildSeed ^^^ line) % 2 ^ 64
  let ret := file.foldl (fun acc p => ((acc <<< 5) + acc + p) % 2 ^ 64) ret
  obf_compile_time_prng ret 1

/-- `obf_weak_random`: `(seed >> (sizeof(OBFSEED)*4)) % n`, i.e. the upper
half of the 64-bit seed reduced modulo `n`.  (For `n = 0` the C++ source is
undefined; Lean's `% 0` returns the left operand, a value never used below.) -/
def obf_weak_random (seed : Nat) (n : Nat) : Nat :=
  (seed >>> 32) % n

/-- Unsigned wraparound subtraction `a - b` on a `w`-bit type with modulus
`M = 2 ^ w`: both operands are reduced and the difference wraps modulo `M`. -/
def obf_usub (M a b : Nat) : Nat :=
  (a % M + (M - b % M)) % M

/-- The weight-walk inside `obf_random_from_list`: return the index of the
first weight whose running total exceeds `r`; `none` when the walk falls off
the end (the `assert(false)` of the source). -/
def obf_pick (r : Nat) : List Nat → Option Nat
  | [] => none
  | w :: ws => if r < w then some 0 else (obf_pick (r - w) ws).map (· + 1)

/-- `obf_random_from_list`: weighted random index.  A zero total weight makes
the modulo in `obf_weak_random` undefined in the source (and the subsequent
assert fail), modelled as `none`. -/
def obf_random_from_list (seed : Nat) (weights : List Nat) : Option Nat :=
  let totalWeight := weights.sum
  if totalWeight = 0 then none
  else obf_pick (obf_weak_random seed totalWeight) weights

/-- The candidate pool of `obf_const_x`: odd constants only, so the same pool
can feed the multiply-by-odd injection. -/
def obf_candidates : List Nat := [3, 5, 7, 15, 25, 31]

/-- `obf_find_idx_in_array`: index of `value` in the list, `none` when absent
(the source returns `size_t(-1)`). -/
def obf_find_idx_in_list (l : List Nat) (value : Nat) : Option Nat :=
  l.findIdx? (· = value)

/-- `obf_const_x`: zero the weights of every excluded candidate, then draw a
candidate by weighted random choice. -/
def obf_const_x (seed : Nat) (excluded : List Nat) : Option Nat :=
  let weights := excluded.foldl
    (fun ws e =>
      match obf_find_idx_in_list obf_candidates e with
      | some found => ws.set found 0
      | none => ws)
    (List.replicate 6 100)
  (obf_random_from_list seed weights).map (fun idx2 => obf_candidates.getD idx2 0)

/-- `OBF_CONST_A`: first per-build constant, no exclusions. -/
def OBF_CONST_A (buildSeed : Nat) : Nat :=
  (obf_const_x (obf_compile_time_prng (buildSeed ^^^ 0xcec4b8ea4b89a1a9) 1) []).getD 0

/-- `OBF_CONST_B`: second per-build constant, excluding `OBF_CONST_A`. -/
def OBF_CONST_B (buildSeed : Nat) : Nat :=
  (obf_const_x (obf_compile_time_prng (buildSeed ^^^ 0x5eec23716fa1d0aa) 1)
    [OBF_CONST_A buildSeed]).getD 0

/-- `OBF_CONST_C`: third per-build constant, excluding the first two. -/
def OBF_CONST_C (buildSeed : Nat) : Nat :=
  (obf_const_x (obf_compile_time_prng (buildSeed ^^^ 0xfb2de18f982a2d55) 1)
    [OBF_CONST_A buildSeed, OBF_CONST_B buildSeed]).getD 0

/-- `obf_random_const`: pick one element of `lst` by a weak random index. -/
def obf_random_const (seed : Nat) (lst : List Nat) : Nat :=
  lst.getD (obf_weak_random seed lst.length) 0

/-- `ObfDescriptor`: eligibility and weight of one strategy
(`{is_recursive, min_cycles, weight}`). -/
structure ObfDescriptor where
  is_recursive : Bool
  min_cycles : Int
  weight : Nat
deriving DecidableEq, Repr

instance : Inhabited ObfDescriptor := ⟨⟨false, 0, 0⟩⟩

/-- `obf_random_obf_from_list`: restrict the weighted draw to the qualifying
recursive strategies when any qualifies, otherwise fall back to the
qualifying non-recursive ones (whose weight sum the source asserts positive;
an empty fallback set is modelled as `none`). -/
def obf_random_obf_from_list (seed : Nat) (cycles : Int) (descr : List ObfDescriptor)
    (exclude_version : Nat) : Option Nat :=
  let r_weights := descr.enum.map (fun p =>
    if p.1 ≠ exclude_version ∧ p.2.min_cycles ≤ cycles ∧ p.2.is_recursive = true
    then p.2.weight else 0)
  let nr_weights := descr.enum.map (fun p =>
    if p.1 ≠ exclude_version ∧ p.2.min_cycles ≤ cycles ∧ p.2.is_recursive = false
    then p.2.weight else 0)
  if r_weights.sum ≠ 0 then obf_random_from_list seed r_weights
  else obf_random_from_list seed nr_weights

/-- `obf_random_split`: subtract every sibling's floor from the budget
(`none` models the fatal `leftovers >= 0` assertion), draw one raw share in
`[1, weight_i]` per sibling from the `i+1`-st derived seed, and grant each
sibling its raw share scaled by `leftovers / totalWeight` and truncated.
The `double` ratio of the source is modelled as the exact real ratio, whose
truncation is Nat floor division. -/
def obf_random_split (seed : Nat) (cycles : Int) (elements : List ObfDescriptor) :
    Option (List Nat) :=
  let leftovers : Int := cycles - (elements.map (fun e => e.min_cycles)).sum
  if leftovers < 0 then none
  else
    let L := leftovers.toNat
    let rawShares := elements.enum.map (fun p =>
      obf_weak_random (obf_compile_time_prng seed (p.1 + 1)) p.2.weight + 1)
    let totalWeight := rawShares.sum
    some (rawShares.map (fun r => r * L / totalWeight))

/-- The cost-accounting interface a `Context` supplies to the strategy
descriptors: `context_cycles`, `calc_cycles(inj, surj)` and
`literal_cycles`. -/
structure CtxCost where
  context_cycles : Int
  calc_cycles : Int → Int → Int
  literal_cycles : Int

/-- Cost interface of `ObfZeroLiteralContext`: zero context cycles, only the
surjection side charged (injections of literals run at compile time), zero
literal cycles. -/
def ObfZeroLiteralContextCost : CtxCost :=
  ⟨0, fun _inj surj => surj, 0⟩

/-- Cost interface of `ObfVarContext`: both directions run at runtime. -/
def ObfVarContextCost : CtxCost :=
  ⟨0, fun inj surj => inj + surj, 50⟩

/-- Descriptor of injection version 0 (identity): non-recursive, weight 1. -/
def obf_injection_version0_descr (C : CtxCost) : ObfDescriptor :=
  ⟨false, C.context_cycles + C.calc_cycles 0 0, 1⟩

/-- Descriptor of injection version 1 (add mod 2^n): recursive, weight 100,
at any width. -/
def obf_injection_version1_descr (C : CtxCost) : ObfDescriptor :=
  ⟨true, C.context_cycles + C.calc_cycles 1 1, 100⟩

/-- Descriptor of injection version 2 (kinda-Feistel round): recursive with
weight 100 for `sizeof(T) > 1`, fully disabled at the one-byte width. -/
def obf_injection_version2_descr (szT : Nat) (C : CtxCost) : ObfDescriptor :=
  if 1 < szT then ⟨true, C.context_cycles + C.calc_cycles 7 7, 100⟩
  else ⟨false, 0, 0⟩

/-- Descriptor of injection version 3 (split-join): recursive with weight 100
for `sizeof(T) > 1`, fully disabled at the one-byte width. -/
def obf_injection_version3_descr (szT : Nat) (C : CtxCost) : ObfDescriptor :=
  if 1 < szT then ⟨true, C.context_cycles + C.calc_cycles 7 7, 100⟩
  else ⟨false, 0, 0⟩

/-- Descriptor of injection version 4 (multiply by odd): recursive, weight
100, at any width; its injection side also pays for the embedded literal. -/
def obf_injection_version4_descr (C : CtxCost) : ObfDescriptor :=
  ⟨true, C.context_cycles + C.calc_cycles (3 + C.literal_cycles) 3, 100⟩

/-- Descriptor of injection version 5 (split without join): recursive with
weight 100 for `sizeof(T) > 1`, fully disabled at the one-byte width. -/
def obf_injection_version5_descr (szT : Nat) (C : CtxCost) : ObfDescriptor :=
  if 1 < szT then ⟨true, C.context_cycles + C.calc_cycles 3 3, 100⟩
  else ⟨false, 0, 0⟩

/-- The descriptor array `obf_injection` chooses from, for a value type of
`szT` bytes under cost interface `C`. -/
def obf_injection_descr (szT : Nat) (C : CtxCost) : List ObfDescriptor :=
  [obf_injection_version0_descr C,
   obf_injection_version1_descr C,
   obf_injection_version2_descr szT C,
   obf_injection_version3_descr szT C,
   obf_injection_version4_descr C,
   obf_injection_version5_descr szT C]

/-- The extended-GCD loop of `obf_mul_inverse_mod2n` (the `while (num != 0)`
loop), with all Bezout-coefficient arithmetic performed on the `w`-bit type
(modulus `M`).  The loop is driven by structural fuel; `num` strictly
decreases each iteration, so any fuel above the initial `num` is enough. -/
def obf_mul_inverse_loop (M : Nat) : Nat → Nat → Nat → Nat → Nat → Nat → Nat → Nat
  | 0, _, _, _, _, lasty, _ => lasty
  | fuel + 1, mod, num, lastx, x, lasty, y =>
    if num = 0 then lasty
    else
      let q := mod / num
      let temp1 := mod % num
      obf_mul_inverse_loop M fuel num temp1 x (obf_usub M lastx (q * x % M)) y
        (obf_usub M lasty (q * y % M))

/-- `obf_mul_inverse_mod2n`: modular inverse of an odd `num` modulo `2 ^ w`
by extended GCD.  `mod` starts at `0`, standing for the modulus `2 ^ w`
which does not fit the type, so the source performs one special "zero step"
(handling `num == 2^w - 1` separately, and computing the first quotient and
remainder through wraparound tricks) before entering the plain loop. -/
def obf_mul_inverse_mod2n (w : Nat) (num : Nat) : Nat :=
  let M := 2 ^ w
  if num = obf_usub M 0 1 then num
  else
    let q := (obf_usub M 0 num / num + 1) % M
    let temp1 := (obf_usub M 0 2 % num + 2) % num
    obf_mul_inverse_loop M (num + 1) num temp1 0 (obf_usub M 1 (q * 0 % M)) 1
      (obf_usub M 0 (q * 1 % M))

/-- A leaf context as the injection chain sees it: the pair
`final_injection` / `final_surjection` of `T → T` functions the `Context`
template parameter supplies to the version-0 terminal strategy. -/
structure LeafCtx where
  finj : Nat → Nat
  fsurj : Nat → Nat

/-- The leaf behaviour of `ObfZeroLiteralContext` and `ObfVarContext`: both
final maps are the identity. -/
def ObfZeroLeafCtx : LeafCtx := ⟨fun x => x, fun y => y⟩

/-- A leaf context round-trips on `w`-bit values: its `final_surjection`
undoes its `final_injection` modulo `2 ^ w`.  This holds for every leaf
context of the source in its invariant-respecting state (identity; global
constant still holding `CC`; aliased zero; PEB with no debugger; rolling
counter with `c % MOD = CC`). -/
def CtxOK (w : Nat) (c : LeafCtx) : Prop :=
  ∀ x, x < 2 ^ w → c.fsurj (c.finj x % 2 ^ w) % 2 ^ w = x

/-- A strategy chain as `obf_injection` composes it: one node per chosen
`obf_injection_version`.  Version 2 carries the randomized half-width
function `f`; versions 3 and 5 carry the independently derived contexts of
their half-width lanes; version 4 carries its odd constant, the context of
the embedded literal that hides the inverse, and the literal's own chain. -/
inductive InjTree where
  | v0 : InjTree
  | v1 (C : Nat) (child : InjTree) : InjTree
  | v2 (f : Nat → Nat) (child : InjTree) : InjTree
  | v3 (loCtx hiCtx : LeafCtx) (lo hi child : InjTree) : InjTree
  | v4 (C : Nat) (litCtx : LeafCtx) (lit child : InjTree) : InjTree
  | v5 (loCtx hiCtx : LeafCtx) (lo hi : InjTree) : InjTree

/-- The representation domain `return_type` of a chain: a scalar for
versions 0-4, a pair of independently encoded lanes for version 5. -/
inductive ObfRep where
  | scalar (v : Nat) : ObfRep
  | pair (lo hi : ObfRep) : ObfRep

/-- The bit image of a chain's representation, as the `reinterpret_cast` of
version 3 reads it: every return type of a `w`-bit chain occupies exactly
`w` bits (versions 0-4 keep the child's scalar or compound shape, version
5's struct lays its `lo` field at the low addresses), so on the
little-endian targets of the source a pair packs as
`lo + hi * 2 ^ (w/2)`.  The chain argument supplies the lane shapes. -/
def packRep (w : Nat) : InjTree → ObfRep → Nat
  | .v0, y =>
    match y with
    | .scalar v => v
    | .pair _ _ => 0
  | .v1 _ t, y => packRep w t y
  | .v2 _ t, y => packRep w t y
  | .v3 _ _ _ _ t, y => packRep w t y
  | .v4 _ _ _ t, y => packRep w t y
  | .v5 _ _ ltree htree, y =>
    match y with
    | .pair ylo yhi => packRep (w / 2) ltree ylo + packRep (w / 2) htree yhi * 2 ^ (w / 2)
    | _ => 0

/-- The inverse reinterpretation: rebuild a chain's representation from its
`w`-bit image (the other direction of version 3's `reinterpret_cast`). -/
def unpackRep (w : Nat) : InjTree → Nat → ObfRep
  | .v0, v => .scalar v
  | .v1 _ t, v => unpackRep w t v
  | .v2 _ t, v => unpackRep w t v
  | .v3 _ _ _ _ t, v => unpackRep w t v
  | .v4 _ _ _ t, v => unpackRep w t v
  | .v5 _ _ ltree htree, v =>
    .pair (unpackRep (w / 2) ltree (v % 2 ^ (w / 2)))
      (unpackRep (w / 2) htree (v / 2 ^ (w / 2)))

/-- The decode direction (`surjection`) of a chain on `w`-bit values under
leaf context `c`, transcribing each version's `surjection` member. -/
def surjection (w : Nat) (c : LeafCtx) : InjTree → ObfRep → Nat
  | .v0, y =>
    c.fsurj (match y with | .scalar v => v | .pair _ _ => 0) % 2 ^ w
  | .v1 C t, y => obf_usub (2 ^ w) (surjection w c t y) C
  | .v2 f t, y =>
    let H := 2 ^ (w / 2)
    let y2 := surjection w c t y
    let hi := y2 / H
    let z := obf_usub (2 ^ w) hi (f (y2 % H) % H) % H
    (z + y2 * H) % 2 ^ w
  | .v3 loCtx hiCtx lo hi t, y =>
    let H := 2 ^ (w / 2)
    let y2 := surjection w c t y
    let hi2 := surjection (w / 2) hiCtx hi (unpackRep (w / 2) hi (y2 / H % H))
    let lo2 := surjection (w / 2) loCtx lo (unpackRep (w / 2) lo (y2 % H))
    (hi2 + lo2 * H) % 2 ^ w
  | .v4 C _litCtx _lit t, y => surjection w c t y * C % 2 ^ w
  | .v5 loCtx hiCtx lo hi, y =>
    match y with
    | .pair ylo yhi =>
      let H := 2 ^ (w / 2)
      let hi2 := surjection (w / 2) hiCtx hi yhi
      let lo2 := surjection (w / 2) loCtx lo ylo
      (lo2 + hi2 * H) % 2 ^ w
    | _ => 0

/-- The encode direction (`injection`) of a chain on `w`-bit values under
leaf context `c`, transcribing each version's `injection` member.  Version 4
multiplies by `literal().value()` — the inverse constant as recovered
through the embedded literal's own encode/decode chain. -/
def injection (w : Nat) (c : LeafCtx) : InjTree → Nat → ObfRep
  | .v0, x => .scalar (c.finj x % 2 ^ w)
  | .v1 C t, x => injection w c t ((x + C) % 2 ^ w)
  | .v2 f t, x =>
    let H := 2 ^ (w / 2)
    let lo := x / H
    let hi := (x % H + f (lo % H) % H) % 2 ^ w
    injection w c t ((hi * H + lo) % 2 ^ w)
  | .v3 loCtx hiCtx lo hi t, x =>
    let H := 2 ^ (w / 2)
    let lo1 := packRep (w / 2) lo (injection (w / 2) loCtx lo (x / H % H))
    let hi1 := packRep (w / 2) hi (injection (w / 2) hiCtx hi (x % H))
    injection w c t ((hi1 * H + lo1) % 2 ^ w)
  | .v4 C litCtx lit t, x =>
    let CINV := obf_mul_inverse_mod2n w C
    let litval := surjection w litCtx lit (injection w litCtx lit CINV)
    injection w c t (x * litval % 2 ^ w)
  | .v5 loCtx hiCtx lo hi, x =>
    .pair (injection (w / 2) loCtx lo (x % 2 ^ (w / 2)))
      (injection (w / 2) hiCtx hi (x / 2 ^ (w / 2) % 2 ^ (w / 2)))

/-- Well-formedness of a chain, collecting exactly the structural facts the
source guarantees for the chains `obf_injection` builds: the leaf context
round-trips, half-width strategies appear only at even positive widths, and
version 4's constant is odd (its `static_assert((C & 1) == 1)`) and
representable.  Version 3's `sizeof(return_type) == sizeof(halfT)` static
asserts need no counterpart: in this model every `w`-bit chain's
representation packs into exactly `w` bits (`packRep`), including the
pair-shaped version-5 lanes the source bit-packs via `reinterpret_cast`. -/
inductive InjWF : Nat → LeafCtx → InjTree → Prop where
  | v0 {w c} (hc : CtxOK w c) : InjWF w c .v0
  | v1 {w c t} (C : Nat) (ht : InjWF w c t) : InjWF w c (.v1 C t)
  | v2 {w c t} (f : Nat → Nat) (heven : w % 2 = 0) (hw : 0 < w) (ht : InjWF w c t) :
      InjWF w c (.v2 f t)
  | v3 {w c loCtx hiCtx lo hi t} (heven : w % 2 = 0) (hw : 0 < w)
      (hlo : InjWF (w / 2) loCtx lo) (hhi : InjWF (w / 2) hiCtx hi) (ht : InjWF w c t) :
      InjWF w c (.v3 loCtx hiCtx lo hi t)
  | v4 {w c litCtx lit t} (C : Nat) (hodd : C % 2 = 1) (hC : C < 2 ^ w) (hw : 0 < w)
      (hlit : InjWF w litCtx lit) (ht : InjWF w c t) : InjWF w c (.v4 C litCtx lit t)
  | v5 {w c loCtx hiCtx lo hi} (heven : w % 2 = 0) (hw : 0 < w)
      (hlo : InjWF (w / 2) loCtx lo) (hhi : InjWF (w / 2) hiCtx hi) :
      InjWF w c (.v5 loCtx hiCtx lo hi)

/-- `MOD` of the rolling-counter literal context (`ObfLiteralContext_version<4>`):
the random constant masked to the low half of the width, with the bad value
`0` remapped to `100`.  The random constant itself comes from `obf_gen_const`,
which this repository's sources do not contain; it is passed in here as an
arbitrary value, which is all the invariant needs. -/
def obf_literal_ctx_v4_MOD (w premodrndconst : Nat) : Nat :=
  let PREMOD := premodrndconst % 2 ^ (w / 2)
  if PREMOD = 0 then 100 else PREMOD

/-- `CC` of the rolling-counter literal context: a weak-random residue below
`MOD`. -/
def obf_literal_ctx_v4_CC (seed MOD : Nat) : Nat :=
  obf_weak_random (obf_compile_time_prng seed 2) MOD

/-- `value()` of an `obf_var` holding representation `val`: decode through
the chain. -/
def obf_var_value (w : Nat) (c : LeafCtx) (t : InjTree) (val : ObfRep) : Nat :=
  surjection w c t val

/-- The post-decrement operator of `obf_var` as written in the source:
`obf_var ret = obf_var(value()); *this = value() + 1; return ret;`
— the returned copy re-encodes the current value, and the assignment
encodes `value() + 1` (the same right-hand side as post-increment).
The first component is the returned copy, the second the new state. -/
def obf_var_postdec (w : Nat) (c : LeafCtx) (t : InjTree) (val : ObfRep) : ObfRep × ObfRep :=
  (injection w c t (obf_var_value w c t val % 2 ^ w),
   injection w c t ((obf_var_value w c t val + 1) % 2 ^ w))

/-- The post-decrement operator of the pass-through `obf_var_dbg` (the
no-seed fallback), on its plain stored value: the returned copy holds the
old value, the variable is assigned `value() + 1`. -/
def obf_var_dbg_postdec (w : Nat) (val : Nat) : Nat × Nat :=
  (val, (val + 1) % 2 ^ w)

/-- The constant pool of injection version 1: `{ 1, OBF_CONST_A,
OBF_CONST_B, OBF_CONST_C }`. -/
def obf_injection_version1_consts (buildSeed : Nat) : List Nat :=
  [1, OBF_CONST_A buildSeed, OBF_CONST_B buildSeed, OBF_CONST_C buildSeed]

/-- The constant `C` of injection version 1: `obf_random_const` over the
four-element pool, drawn from the second derived seed of the site seed. -/
def obf_injection_version1_C (buildSeed seed : Nat) : Nat :=
  obf_random_const (obf_compile_time_prng seed 2) (obf_injection_version1_consts buildSeed)

/-- The site-seed derivation in the words of claim C8: fold the build seed
with the line, then fold every byte with `acc = acc*33 + acc + byte`
(that is, `acc` becomes `34*acc + byte`), then one LCG step. -/
def obf_seed_from_file_line_claimC8 (buildSeed : Nat) (file : List Nat) (line : Nat) : Nat :=
  let ret := (buildSeed ^^^ line) % 2 ^ 64
  let ret := file.foldl (fun acc p => (acc * 33 + acc + p) % 2 ^ 64) ret
  obf_compile_time_prng ret 1

/-- The site-seed derivation as the counterexample to claim C8 forces it to
be amended: the byte fold is `acc = acc*32 + acc + byte` (that is, `acc`
becomes `33*acc + byte`, the classic djb2 step); line fold and final LCG
step unchanged. -/
def obf_seed_from_file_line_amendedC8 (buildSeed : Nat) (file : List Nat) (line : Nat) : Nat :=
  let ret := (buildSeed ^^^ line) % 2 ^ 64
  let ret := file.foldl (fun acc p => (acc * 32 + acc + p) % 2 ^ 64) ret
  obf_compile_time_prng ret 1

/-- Wraparound subtraction stays below the modulus. -/
theorem obf_usub_lt {M : Nat} (hM : 0 < M) (a b : Nat) : obf_usub M a b < M :=
  Nat.mod_lt _ hM

/-- Wraparound subtraction of `C` undoes wraparound addition of `C` on a
reduced value. -/
theorem obf_usub_add_cancel {M : Nat} {x : Nat} (C : Nat) (hx : x < M) :
    obf_usub M ((x + C) % M) C = x := by
  have hM : 0 < M := by omega
  have hr : C % M < M := Nat.mod_lt C hM
  have hC : C = M * (C / M) + C % M := (Nat.div_add_mod C M).symm
  have h1 : (x + C) % M = (x + C % M) % M := by
    conv_lhs => rw [hC]
    rw [show x + (M * (C / M) + C % M) = x + C % M + M * (C / M) by omega,
      Nat.add_mul_mod_self_left]
  rw [obf_usub, h1, Nat.mod_mod_of_dvd _ dvd_rfl, Nat.mod_add_mod,
    show x + C % M + (M - C % M) = x + M by omega, Nat.add_mod_right,
    Nat.mod_eq_of_lt hx]

/-- Multiplying a reduced value by `A` and then by `B` is the identity when
`A * B ≡ 1` modulo `M`. -/
theorem obf_mul_inv_cancel {M A B x : Nat} (h : A * B % M = 1) (hx : x < M) :
    x * A % M * B % M = x := by
  rw [Nat.mod_mul_mod, Nat.mul_assoc, Nat.mul_mod, h, Nat.mul_one,
    Nat.mod_mod_of_dvd _ dvd_rfl, Nat.mod_eq_of_lt hx]

/-- Recombining two below-`H` halves stays below `H * H`. -/
theorem obf_half_lt {H a b : Nat} (ha : a < H) (hb : b < H) : b * H + a < H * H := by
  calc b * H + a < b * H + H := by omega
    _ = (b + 1) * H := by ring
    _ ≤ H * H := Nat.mul_le_mul_right H (by omega)

/-- Reduction of a recombined value modulo `H * H` reduces only the high
half. -/
theorem obf_half_mod {H a : Nat} (b : Nat) (ha : a < H) :
    (b * H + a) % (H * H) = b % H * H + a := by
  have hH : 0 < H := by omega
  rw [Nat.add_mod, Nat.mul_mod_mul_right, Nat.mod_eq_of_lt (lt_of_lt_of_le ha (Nat.le_mul_of_pos_left H hH)),
    Nat.mod_eq_of_lt (obf_half_lt ha (Nat.mod_lt b hH))]

/-- The high half of a recombined value. -/
theorem obf_half_div {H a : Nat} (b : Nat) (hH : 0 < H) (ha : a < H) :
    (b * H + a) / H = b := by
  rw [Nat.mul_comm b H, Nat.mul_add_div hH, Nat.div_eq_of_lt ha, Nat.add_zero]

/-- The low half of a recombined value. -/
theorem obf_half_modH {H a : Nat} (b : Nat) (ha : a < H) :
    (b * H + a) % H = a := by
  rw [Nat.add_comm, Nat.mul_comm, Nat.add_mul_mod_self_left, Nat.mod_eq_of_lt ha]

/-- The weight walk of `obf_random_from_list` succeeds on any reference
weight below the total, and lands on an index with positive weight. -/
theorem obf_pick_spec : ∀ (ws : List Nat) (r : Nat), r < ws.sum →
    ∃ i, obf_pick r ws = some i ∧ i < ws.length ∧ 0 < ws.getD i 0 := by
  intro ws
  induction ws with
  | nil => intro r hr; simp at hr
  | cons w ws ih =>
    intro r hr
    by_cases h : r < w
    · exact ⟨0, by simp [obf_pick, h], by simp, by simpa using Nat.lt_of_le_of_lt (Nat.zero_le r) h⟩
    · have hr2 : r - w < ws.sum := by simp [List.sum_cons] at hr; omega
      obtain ⟨i, hpick, hlen, hpos⟩ := ih (r - w) hr2
      exact ⟨i + 1, by simp [obf_pick, h, hpick], by simpa using hlen, by simpa using hpos⟩

/-- `obf_random_from_list` succeeds whenever the total weight is positive,
and lands on an index with positive weight; in particular neither of its
assertions can fail. -/
theorem obf_random_from_list_spec (seed : Nat) (ws : List Nat) (h : 0 < ws.sum) :
    ∃ i, obf_random_from_list seed ws = some i ∧ i < ws.length ∧ 0 < ws.getD i 0 := by
  have hne : ws.sum ≠ 0 := Nat.pos_iff_ne_zero.mp h
  have hlt : obf_weak_random seed ws.sum < ws.sum := Nat.mod_lt _ h
  obtain ⟨i, hpick, hlen, hpos⟩ := obf_pick_spec ws _ hlt
  exact ⟨i, by simp [obf_random_from_list, hne, hpick], hlen, hpos⟩

/-- Wraparound subtraction casts to genuine subtraction in `ZMod M`. -/
theorem obf_usub_cast {M : Nat} (hM : 0 < M) (a b : Nat) :
    ((obf_usub M a b : Nat) : ZMod M) = (a : ZMod M) - b := by
  have hle : b % M ≤ M := Nat.le_of_lt (Nat.mod_lt b hM)
  rw [obf_usub, ZMod.natCast_mod, Nat.cast_add, ZMod.natCast_mod, Nat.cast_sub hle,
    ZMod.natCast_mod, ZMod.natCast_self]
  ring

/-- The extended-GCD loop maintains the Bezout congruence
`num0 * lasty ≡ mod` and `num0 * y ≡ num` modulo `M`, so with enough fuel it
returns a `lasty` with `num0 * lasty ≡ gcd(mod, num) (mod M)`. -/
theorem obf_mul_inverse_loop_spec (M num0 : Nat) (hM : 0 < M) :
    ∀ (fuel num mod lastx x lasty y : Nat), num < fuel →
      (num0 : ZMod M) * (lasty : ZMod M) = (mod : ZMod M) →
      (num0 : ZMod M) * (y : ZMod M) = (num : ZMod M) →
      (num0 : ZMod M) * ((obf_mul_inverse_loop M fuel mod num lastx x lasty y : Nat) : ZMod M)
        = ((Nat.gcd mod num : Nat) : ZMod M) := by
  intro fuel
  induction fuel with
  | zero => intro num mod lastx x lasty y hfuel; omega
  | succ fuel ih =>
    intro num mod lastx x lasty y hfuel h1 h2
    by_cases h0 : num = 0
    · subst h0
      simpa [obf_mul_inverse_loop, Nat.gcd_zero_right] using h1
    · have hnum : 0 < num := Nat.pos_of_ne_zero h0
      have hmodlt : mod % num < num := Nat.mod_lt mod hnum
      have hrec : (num0 : ZMod M) * ((obf_usub M lasty (mod / num * y % M) : Nat) : ZMod M)
          = ((mod % num : Nat) : ZMod M) := by
        rw [obf_usub_cast hM, ZMod.natCast_mod, Nat.cast_mul]
        have hdm : ((num : ZMod M)) * ((mod / num : Nat) : ZMod M) + ((mod % num : Nat) : ZMod M)
            = ((mod : Nat) : ZMod M) := by
          have := Nat.div_add_mod mod num
          calc ((num : ZMod M)) * ((mod / num : Nat) : ZMod M) + ((mod % num : Nat) : ZMod M)
              = ((num * (mod / num) + mod % num : Nat) : ZMod M) := by push_cast; ring
            _ = ((mod : Nat) : ZMod M) := by rw [this]
        linear_combination h1 - ((mod / num : Nat) : ZMod M) * h2 - hdm
      have hgcd : Nat.gcd num (mod % num) = Nat.gcd mod num := by
        rw [Nat.gcd_comm num (mod % num), ← Nat.gcd_rec num mod, Nat.gcd_comm num mod]
      have := ih (mod % num) num x (obf_usub M lastx (mod / num * x % M)) y
        (obf_usub M lasty (mod / num * y % M)) (by omega) h2 hrec
      simpa [obf_mul_inverse_loop, h0, hgcd] using this

/-- The extended-GCD loop only ever returns reduced Bezout coefficients. -/
theorem obf_mul_inverse_loop_lt (M : Nat) (hM : 0 < M) :
    ∀ (fuel num mod lastx x lasty y : Nat), lasty < M → y < M →
      obf_mul_inverse_loop M fuel mod num lastx x lasty y < M := by
  intro fuel
  induction fuel with
  | zero => intro num mod lastx x lasty y h1 h2; simpa [obf_mul_inverse_loop] using h1
  | succ fuel ih =>
    intro num mod lastx x lasty y h1 h2
    by_cases h0 : num = 0
    · simpa [obf_mul_inverse_loop, h0] using h1
    · simpa [obf_mul_inverse_loop, h0] using
        ih (mod % num) num x (obf_usub M lastx (mod / num * x % M)) y
          (obf_usub M lasty (mod / num * y % M)) h2 (obf_usub_lt hM _ _)

/-- Equality in `ZMod M` of a Nat cast with `1` pins down the residue. -/
theorem obf_mod_eq_one_of_cast {M a : Nat} (hM : 1 < M) (h : (a : ZMod M) = 1) :
    a % M = 1 := by
  have h2 : a ≡ 1 [MOD M] := by
    have := (ZMod.natCast_eq_natCast_iff a 1 M).mp (by exact_mod_cast h)
    exact this
  calc a % M = 1 % M := h2
    _ = 1 := Nat.mod_eq_of_lt hM

/-- The zero-step helper values of `obf_mul_inverse_mod2n`, evaluated:
`T(0 - 1) = M - 1` on a type with at least two values. -/
theorem obf_usub_zero_one {M : Nat} (hM : 1 < M) : obf_usub M 0 1 = M - 1 := by
  rw [obf_usub, Nat.zero_mod, Nat.mod_eq_of_lt hM, Nat.zero_add,
    Nat.mod_eq_of_lt (by omega)]

/-- `T(0 - b) = M - b` for `0 < b < M`. -/
theorem obf_usub_zero {M b : Nat} (hb : 0 < b) (hbM : b < M) : obf_usub M 0 b = M - b := by
  rw [obf_usub, Nat.zero_mod, Nat.mod_eq_of_lt hbM, Nat.zero_add,
    Nat.mod_eq_of_lt (by omega)]

/-- Correctness of `obf_mul_inverse_mod2n`: for every odd representable
`num` it returns a multiplicative inverse modulo `2 ^ w`. -/
theorem obf_mul_inverse_mod2n_correct (w num : Nat) (hw : 0 < w) (hodd : num % 2 = 1)
    (hlt : num < 2 ^ w) : num * obf_mul_inverse_mod2n w num % 2 ^ w = 1 := by
  have hM2 : 2 ≤ 2 ^ w := by
    calc 2 = 2 ^ 1 := by norm_num
      _ ≤ 2 ^ w := Nat.pow_le_pow_right (by norm_num) hw
  have hM : 0 < 2 ^ w := by omega
  have hnum : 0 < num := by omega
  rw [obf_mul_inverse_mod2n]
  split_ifs with hbr
  · -- num = T(0 - 1) = 2^w - 1, which is its own inverse
    rw [obf_usub_zero_one (by omega)] at hbr
    apply obf_mod_eq_one_of_cast (by omega)
    have hcast : (((2 ^ w - 1 : Nat)) : ZMod (2 ^ w)) = ((2 ^ w : Nat) : ZMod (2 ^ w)) - 1 := by
      push_cast [show (1 : Nat) ≤ 2 ^ w by omega]
      ring
    rw [Nat.cast_mul, hbr, hcast, ZMod.natCast_self]
    ring
  · rw [obf_usub_zero_one (by omega)] at hbr
    -- in this branch the width is at least 2: at width 1 every odd value is 2^w - 1
    have hw2 : 2 ≤ w := by
      by_contra hcon
      have hw1 : w = 1 := by omega
      subst hw1
      omega
    have hM4 : 4 ≤ 2 ^ w := by
      calc 4 = 2 ^ 2 := by norm_num
        _ ≤ 2 ^ w := Nat.pow_le_pow_right (by norm_num) hw2
    have husub2 : obf_usub (2 ^ w) 0 2 = 2 ^ w - 2 := obf_usub_zero (by omega) (by omega)
    have husubn : obf_usub (2 ^ w) 0 num = 2 ^ w - num := obf_usub_zero hnum (by omega)
    rw [husub2, husubn]
    -- the first remainder is 2^w % num
    have htemp1 : ((2 ^ w - 2) % num + 2) % num = 2 ^ w % num := by
      rw [Nat.mod_add_mod, show 2 ^ w - 2 + 2 = 2 ^ w by omega]
    -- the first quotient is 2^w / num
    have hq : (2 ^ w - num) / num + 1 = 2 ^ w / num := by
      have hk : 2 ^ w = num * (2 ^ w / num) + 2 ^ w % num := (Nat.div_add_mod (2 ^ w) num).symm
      have hk1 : 0 < 2 ^ w / num := Nat.div_pos (by omega) hnum
      have hsplit : 2 ^ w - num = num * (2 ^ w / num - 1) + 2 ^ w % num := by
        have h3 : 2 ^ w / num - 1 + 1 = 2 ^ w / num := by omega
        have h2 : num * (2 ^ w / num - 1) + num = num * (2 ^ w / num) := by
          calc num * (2 ^ w / num - 1) + num = num * (2 ^ w / num - 1 + 1) := by ring
            _ = num * (2 ^ w / num) := by rw [h3]
        omega
      rw [hsplit, Nat.mul_add_div hnum, Nat.div_eq_of_lt (Nat.mod_lt _ hnum)]
      omega
    rw [htemp1, hq]
    -- apply the loop invariant
    have hfuel : 2 ^ w % num < num + 1 := by
      have := Nat.mod_lt (2 ^ w) hnum
      omega
    have h1 : (num : ZMod (2 ^ w)) * ((1 : Nat) : ZMod (2 ^ w)) = ((num : Nat) : ZMod (2 ^ w)) := by
      push_cast; ring
    have h2 : (num : ZMod (2 ^ w)) *
        ((obf_usub (2 ^ w) 0 (2 ^ w / num % 2 ^ w * 1 % 2 ^ w) : Nat) : ZMod (2 ^ w))
        = ((2 ^ w % num : Nat) : ZMod (2 ^ w)) := by
      rw [obf_usub_cast hM, Nat.mul_one, ZMod.natCast_mod, ZMod.natCast_mod]
      have hdm : ((num : ZMod (2 ^ w))) * ((2 ^ w / num : Nat) : ZMod (2 ^ w))
          + ((2 ^ w % num : Nat) : ZMod (2 ^ w)) = ((2 ^ w : Nat) : ZMod (2 ^ w)) := by
        have hdam := Nat.div_add_mod (2 ^ w) num
        calc ((num : ZMod (2 ^ w))) * ((2 ^ w / num : Nat) : ZMod (2 ^ w))
            + ((2 ^ w % num : Nat) : ZMod (2 ^ w))
            = ((num * (2 ^ w / num) + 2 ^ w % num : Nat) : ZMod (2 ^ w)) := by push_cast; ring
          _ = ((2 ^ w : Nat) : ZMod (2 ^ w)) := by rw [hdam]
      rw [ZMod.natCast_self] at hdm
      push_cast at hdm ⊢
      linear_combination -hdm
    have hloop := obf_mul_inverse_loop_spec (2 ^ w) num hM (num + 1) (2 ^ w % num) num 0
      (obf_usub (2 ^ w) 1 (2 ^ w / num % 2 ^ w * 0 % 2 ^ w)) 1
      (obf_usub (2 ^ w) 0 (2 ^ w / num % 2 ^ w * 1 % 2 ^ w))
      hfuel h1 h2
    -- the gcd is 1: 2 ^ w is coprime to every odd number
    have hcop : Nat.gcd num (2 ^ w % num) = 1 := by
      have hco : Nat.Coprime (2 ^ w) num := by
        have hc2 : Nat.Coprime 2 num :=
          (Nat.Prime.coprime_iff_not_dvd Nat.prime_two).mpr (by omega)
        exact Nat.Coprime.pow_left w hc2
      calc Nat.gcd num (2 ^ w % num) = Nat.gcd (2 ^ w % num) num := Nat.gcd_comm _ _
        _ = Nat.gcd num (2 ^ w) := (Nat.gcd_rec num (2 ^ w)).symm
        _ = Nat.gcd (2 ^ w) num := Nat.gcd_comm _ _
        _ = 1 := hco
    rw [hcop] at hloop
    apply obf_mod_eq_one_of_cast (by omega)
    push_cast at hloop ⊢
    exact hloop

/-- `obf_mul_inverse_mod2n` returns a representable value. -/
theorem obf_mul_inverse_mod2n_lt (w num : Nat) (hw : 0 < w) (hlt : num < 2 ^ w) :
    obf_mul_inverse_mod2n w num < 2 ^ w := by
  have hM2 : 2 ≤ 2 ^ w := by
    calc 2 = 2 ^ 1 := by norm_num
      _ ≤ 2 ^ w := Nat.pow_le_pow_right (by norm_num) hw
  rw [obf_mul_inverse_mod2n]
  split_ifs with hbr
  · exact hlt
  · exact obf_mul_inverse_loop_lt (2 ^ w) (by omega) _ _ _ _ _ _ _
      (by omega) (obf_usub_lt (by omega) _ _)

/-- Width bookkeeping for the half-width strategies: at an even positive
width the half type has at least two values and the squares recompose. -/
theorem obf_half_facts {w : Nat} (heven : w % 2 = 0) (hw : 0 < w) :
    2 ≤ 2 ^ (w / 2) ∧ 2 ^ w = 2 ^ (w / 2) * 2 ^ (w / 2) := by
  constructor
  · have h1 : 1 ≤ w / 2 := by omega
    calc 2 = 2 ^ 1 := by norm_num
      _ ≤ 2 ^ (w / 2) := Nat.pow_le_pow_right (by norm_num) h1
  · rw [← pow_add]
    congr 1
    omega

/-- The kinda-Feistel cancellation: masked wraparound subtraction of the
perturbation `e` undoes its addition on the low half. -/
theorem obf_usub_half {M H K : Nat} (hMK : M = H * K) (hK : 0 < K) {a e : Nat}
    (ha : a < H) (he : e < H) : obf_usub M ((a + e) % H) e % H = a := by
  have hH : 0 < H := by omega
  have hHM : H ≤ M := by
    have h1 : H * 1 ≤ H * K := Nat.mul_le_mul_left H hK
    simpa [hMK] using h1
  have hdvd : H ∣ M := ⟨K, hMK⟩
  have h1 : (a + e) % H % M = (a + e) % H := Nat.mod_eq_of_lt (by
    have := Nat.mod_lt (a + e) hH
    omega)
  have h2 : e % M = e := Nat.mod_eq_of_lt (by omega)
  rw [obf_usub, h1, h2, Nat.mod_mod_of_dvd _ hdvd, Nat.mod_add_mod,
    show a + e + (M - e) = a + H * K by omega, Nat.add_mul_mod_self_left,
    Nat.mod_eq_of_lt ha]

/-- Low and high halves recompose to the original value. -/
theorem obf_recomb {M H x : Nat} (_hMH : M = H * H) (hx : x < M) :
    (x % H + x / H * H) % M = x := by
  have h1 : x % H + x / H * H = x := by
    rw [Nat.mul_comm]
    exact Nat.mod_add_div x H
  rw [h1, Nat.mod_eq_of_lt hx]

/-- The bit image of a well-formed chain's encoding is a reduced `w`-bit
value, and reinterpreting it back yields the original representation — the
source's `reinterpret_cast` pair at version 3 is lossless for every chain,
including pair-shaped version-5 lanes (the `sizeof` static asserts hold by
construction: a `w`-bit chain's representation occupies exactly `w` bits). -/
theorem packRep_unpackRep {w : Nat} {c : LeafCtx} {t : InjTree}
    (hWF : InjWF w c t) :
    ∀ x, packRep w t (injection w c t x) < 2 ^ w ∧
      unpackRep w t (packRep w t (injection w c t x)) = injection w c t x := by
  induction hWF with
  | v0 hc =>
    intro x
    exact ⟨Nat.mod_lt _ (Nat.two_pow_pos _), rfl⟩
  | v1 C ht ih =>
    intro x
    simp only [injection, packRep, unpackRep]
    exact ih _
  | v2 f heven hw ht ih =>
    intro x
    simp only [injection, packRep, unpackRep]
    exact ih _
  | v3 heven hw hlo hhi ht ihlo ihhi ihchild =>
    intro x
    simp only [injection, packRep, unpackRep]
    exact ihchild _
  | v4 C hodd hC hw hlit ht ihlit ihchild =>
    intro x
    simp only [injection, packRep, unpackRep]
    exact ihchild _
  | v5 heven hw hlo hhi ihlo ihhi =>
    rename_i wv _ loCv hiCv lov hiv
    intro x
    obtain ⟨hH2, hMH⟩ := obf_half_facts heven hw
    have hH : 0 < 2 ^ (wv / 2) := by omega
    obtain ⟨hl1, hl2⟩ := ihlo (x % 2 ^ (wv / 2))
    obtain ⟨hh1, hh2⟩ := ihhi (x / 2 ^ (wv / 2) % 2 ^ (wv / 2))
    simp only [injection, packRep, unpackRep]
    constructor
    · rw [hMH, Nat.add_comm]
      exact obf_half_lt hl1 hh1
    · have e1 : (packRep (wv / 2) lov (injection (wv / 2) loCv lov (x % 2 ^ (wv / 2)))
          + packRep (wv / 2) hiv
            (injection (wv / 2) hiCv hiv (x / 2 ^ (wv / 2) % 2 ^ (wv / 2))) * 2 ^ (wv / 2))
          % 2 ^ (wv / 2)
          = packRep (wv / 2) lov (injection (wv / 2) loCv lov (x % 2 ^ (wv / 2))) := by
        rw [Nat.add_comm]
        exact obf_half_modH _ hl1
      have e2 : (packRep (wv / 2) lov (injection (wv / 2) loCv lov (x % 2 ^ (wv / 2)))
          + packRep (wv / 2) hiv
            (injection (wv / 2) hiCv hiv (x / 2 ^ (wv / 2) % 2 ^ (wv / 2))) * 2 ^ (wv / 2))
          / 2 ^ (wv / 2)
          = packRep (wv / 2) hiv
            (injection (wv / 2) hiCv hiv (x / 2 ^ (wv / 2) % 2 ^ (wv / 2))) := by
        rw [Nat.add_comm]
        exact obf_half_div _ hH hl1
      rw [e1, e2, hl2, hh2]


/-- Round-trip of every well-formed strategy chain: the surjection undoes
the injection on every representable value.  This is the composition of the
per-version cancellations: context round-trip (v0), add/subtract (v1),
Feistel-style low-half cancellation (v2), lane-wise recomposition (v3, v5)
and multiplication by the hidden inverse then by the odd constant (v4). -/
theorem surjection_injection_roundtrip {w : Nat} {c : LeafCtx} {t : InjTree}
    (hWF : InjWF w c t) :
    ∀ x, x < 2 ^ w → surjection w c t (injection w c t x) = x := by
  induction hWF with
  | v0 hc =>
    intro x hx
    simp only [injection, surjection]
    exact hc x hx
  | v1 C ht ih =>
    rename_i wv _ _
    intro x hx
    have hM : 0 < 2 ^ wv := Nat.two_pow_pos wv
    simp only [injection, surjection]
    rw [ih _ (Nat.mod_lt _ hM)]
    exact obf_usub_add_cancel C hx
  | v2 f heven hw ht ih =>
    rename_i wv _ _
    intro x hx
    obtain ⟨hH2, hMH⟩ := obf_half_facts heven hw
    have hH : 0 < 2 ^ (wv / 2) := by omega
    have hb : x / 2 ^ (wv / 2) < 2 ^ (wv / 2) :=
      Nat.div_lt_of_lt_mul (by rw [← hMH]; exact hx)
    have hfv : f (x / 2 ^ (wv / 2)) % 2 ^ (wv / 2) < 2 ^ (wv / 2) := Nat.mod_lt _ hH
    simp only [injection, surjection]
    rw [Nat.mod_eq_of_lt hb]
    -- the perturbed high half does not overflow the full width
    have hhiv : x % 2 ^ (wv / 2) + f (x / 2 ^ (wv / 2)) % 2 ^ (wv / 2) < 2 ^ wv := by
      have hmlt : x % 2 ^ (wv / 2) < 2 ^ (wv / 2) := Nat.mod_lt _ hH
      have h2 : 2 * 2 ^ (wv / 2) ≤ 2 ^ (wv / 2) * 2 ^ (wv / 2) :=
        Nat.mul_le_mul_right _ hH2
      rw [hMH]
      omega
    rw [Nat.mod_eq_of_lt hhiv]
    -- reduce the recombined child input modulo the full width
    have hu_eq : ((x % 2 ^ (wv / 2) + f (x / 2 ^ (wv / 2)) % 2 ^ (wv / 2)) * 2 ^ (wv / 2)
        + x / 2 ^ (wv / 2)) % 2 ^ wv
        = (x % 2 ^ (wv / 2) + f (x / 2 ^ (wv / 2)) % 2 ^ (wv / 2)) % 2 ^ (wv / 2) * 2 ^ (wv / 2)
          + x / 2 ^ (wv / 2) := by
      rw [hMH]
      exact obf_half_mod _ hb
    rw [hu_eq]
    have hu_lt : (x % 2 ^ (wv / 2) + f (x / 2 ^ (wv / 2)) % 2 ^ (wv / 2)) % 2 ^ (wv / 2)
        * 2 ^ (wv / 2) + x / 2 ^ (wv / 2) < 2 ^ wv := by
      rw [hMH]
      exact obf_half_lt hb (Nat.mod_lt _ hH)
    rw [ih _ hu_lt]
    rw [obf_half_div _ hH hb, obf_half_modH _ hb]
    rw [obf_usub_half hMH hH (Nat.mod_lt _ hH) hfv]
    rw [Nat.add_mod]
    have humul : ((x % 2 ^ (wv / 2) + f (x / 2 ^ (wv / 2)) % 2 ^ (wv / 2)) % 2 ^ (wv / 2)
        * 2 ^ (wv / 2) + x / 2 ^ (wv / 2)) * 2 ^ (wv / 2) % 2 ^ wv
        = x / 2 ^ (wv / 2) * 2 ^ (wv / 2) := by
      rw [hMH, Nat.mul_mod_mul_right, obf_half_modH _ hb]
    rw [humul, Nat.mod_eq_of_lt (show x % 2 ^ (wv / 2) < 2 ^ wv by
      have := Nat.mod_lt x hH
      have hle : 2 ^ (wv / 2) ≤ 2 ^ wv := Nat.pow_le_pow_right (by norm_num) (by omega)
      omega)]
    exact obf_recomb hMH hx
  | v3 heven hw hlo hhi ht ihlo ihhi ihchild =>
    rename_i wv cv loCv hiCv lov hiv tv
    intro x hx
    obtain ⟨hH2, hMH⟩ := obf_half_facts heven hw
    have hH : 0 < 2 ^ (wv / 2) := by omega
    have hb : x / 2 ^ (wv / 2) < 2 ^ (wv / 2) :=
      Nat.div_lt_of_lt_mul (by rw [← hMH]; exact hx)
    simp only [injection, surjection]
    rw [Nat.mod_eq_of_lt hb]
    obtain ⟨hlo1, hlo2⟩ := packRep_unpackRep hlo (x / 2 ^ (wv / 2))
    obtain ⟨hhi1, hhi2⟩ := packRep_unpackRep hhi (x % 2 ^ (wv / 2))
    have hu_lt : packRep (wv / 2) hiv (injection (wv / 2) hiCv hiv (x % 2 ^ (wv / 2)))
        * 2 ^ (wv / 2)
        + packRep (wv / 2) lov (injection (wv / 2) loCv lov (x / 2 ^ (wv / 2))) < 2 ^ wv := by
      rw [hMH]
      exact obf_half_lt hlo1 hhi1
    rw [Nat.mod_eq_of_lt hu_lt, ihchild _ hu_lt]
    rw [obf_half_div _ hH hlo1, obf_half_modH _ hlo1, Nat.mod_eq_of_lt hhi1]
    rw [hhi2, hlo2]
    rw [ihhi _ (Nat.mod_lt _ hH), ihlo _ hb]
    exact obf_recomb hMH hx
  | v4 C hodd hC hw hlit ht ihlit ihchild =>
    rename_i wv _ _ _ _
    intro x hx
    have hM : 0 < 2 ^ wv := Nat.two_pow_pos wv
    simp only [injection, surjection]
    rw [ihlit _ (obf_mul_inverse_mod2n_lt wv C hw hC)]
    rw [ihchild _ (Nat.mod_lt _ hM)]
    have hinv : obf_mul_inverse_mod2n wv C * C % 2 ^ wv = 1 := by
      rw [Nat.mul_comm]
      exact obf_mul_inverse_mod2n_correct wv C hw hodd hC
    exact obf_mul_inv_cancel hinv hx
  | v5 heven hw hlo hhi ihlo ihhi =>
    rename_i wv _ _ _ _ _
    intro x hx
    obtain ⟨hH2, hMH⟩ := obf_half_facts heven hw
    have hH : 0 < 2 ^ (wv / 2) := by omega
    have hb : x / 2 ^ (wv / 2) < 2 ^ (wv / 2) :=
      Nat.div_lt_of_lt_mul (by rw [← hMH]; exact hx)
    simp only [injection, surjection]
    rw [Nat.mod_eq_of_lt hb]
    rw [ihlo _ (Nat.mod_lt _ hH), ihhi _ hb]
    exact obf_recomb hMH hx

/-- Summing truncated scaled shares, then rescaling, stays below the sum of
the exact products. -/
theorem obf_sum_div_mul_le (S L : Nat) :
    ∀ l : List Nat, (l.map (fun r => r * L / S)).sum * S ≤ (l.map (fun r => r * L)).sum := by
  intro l
  induction l with
  | nil => simp
  | cons r rest ih =>
    simp only [List.map_cons, List.sum_cons, Nat.add_mul]
    have h1 : r * L / S * S ≤ r * L := Nat.div_mul_le_self (r * L) S
    omega

/-- Mapped multiplication distributes over a list sum. -/
theorem obf_sum_map_mul (L : Nat) : ∀ l : List Nat, (l.map (fun r => r * L)).sum = l.sum * L := by
  intro l
  induction l with
  | nil => simp
  | cons r rest ih =>
    simp only [List.map_cons, List.sum_cons, ih, Nat.add_mul]

/-- The correctness-critical direction of the splitter's truncation: when
every raw share is positive, the truncated scaled shares sum to at most the
leftover budget. -/
theorem obf_shares_sum_le {l : List Nat} (L : Nat) (hpos : ∀ r ∈ l, 1 ≤ r) :
    (l.map (fun r => r * L / l.sum)).sum ≤ L := by
  cases l with
  | nil => simp
  | cons r0 rest =>
    have hS : 0 < (r0 :: rest).sum := by
      have h1 : 1 ≤ r0 := hpos r0 (by simp)
      simp only [List.sum_cons]
      omega
    have h1 := obf_sum_div_mul_le ((r0 :: rest).sum) L (r0 :: rest)
    rw [obf_sum_map_mul] at h1
    have h2 : (List.map (fun r => r * L / (r0 :: rest).sum) (r0 :: rest)).sum
        * (r0 :: rest).sum ≤ L * (r0 :: rest).sum := by
      calc (List.map (fun r => r * L / (r0 :: rest).sum) (r0 :: rest)).sum * (r0 :: rest).sum
          ≤ (r0 :: rest).sum * L := h1
        _ = L * (r0 :: rest).sum := Nat.mul_comm _ _
    exact Nat.le_of_mul_le_mul_right h2 hS

/-- Every raw share drawn inside `obf_random_split` is at least one. -/
theorem obf_raw_shares_pos (seed : Nat) (elements : List ObfDescriptor) :
    ∀ r ∈ elements.enum.map (fun p =>
      obf_weak_random (obf_compile_time_prng seed (p.1 + 1)) p.2.weight + 1), 1 ≤ r := by
  intro r hr
  rw [List.mem_map] at hr
  obtain ⟨p, _, hp⟩ := hr
  omega

/-- Claim C3: whenever `obf_random_split` returns (the summed floors fit the
budget), the returned shares sum to at most the leftover
`cycles - Σ min_cycles`, so the assertion at its end never fails; and when
the summed floors exceed the budget, the split fails at the
`leftovers >= 0` assertion. -/
theorem claimC3_split_budget (seed : Nat) (cycles : Int) (elements : List ObfDescriptor) :
    (∀ shares, obf_random_split seed cycles elements = some shares →
      (shares.sum : Int) ≤ cycles - (elements.map (fun e => e.min_cycles)).sum) ∧
    (cycles < (elements.map (fun e => e.min_cycles)).sum →
      obf_random_split seed cycles elements = none) := by
  constructor
  · intro shares hres
    simp only [obf_random_split] at hres
    by_cases hneg : cycles - (elements.map (fun e => e.min_cycles)).sum < 0
    · simp [hneg] at hres
    · rw [if_neg hneg, Option.some_inj] at hres
      have hsum := obf_shares_sum_le
        ((cycles - (elements.map (fun e => e.min_cycles)).sum).toNat)
        (obf_raw_shares_pos seed elements)
      rw [hres] at hsum
      have hnn : (0 : Int) ≤ cycles - (elements.map (fun e => e.min_cycles)).sum := by omega
      omega
  · intro hgt
    simp only [obf_random_split]
    rw [if_pos (by omega)]

/-- The identity leaf context round-trips at every width. -/
theorem ObfZeroLeafCtx_ok (w : Nat) : CtxOK w ObfZeroLeafCtx := by
  intro x hx
  simp [ObfZeroLeafCtx, Nat.mod_eq_of_lt hx]

/-- Claim C1: for every strategy chain built from versions 0-5 (over any
width and any round-tripping Context), the surjection recovers every
representable value from its injection. -/
theorem claimC1_roundtrip (w : Nat) (c : LeafCtx) (t : InjTree) (hWF : InjWF w c t)
    (x : Nat) (hx : x < 2 ^ w) :
    surjection w c t (injection w c t x) = x :=
  surjection_injection_roundtrip hWF x hx

/-- A 32-bit witness chain exercising versions 0, 1, 2, 3, 4 and 5, with a
pair-shaped version-5 chain as version 3's low lane (the case where the
`reinterpret_cast` bit-packing of version 3 is exercised on a compound
return type). -/
def obf_witness_tree : InjTree :=
  .v3 ObfZeroLeafCtx ObfZeroLeafCtx
    (.v5 ObfZeroLeafCtx ObfZeroLeafCtx (.v1 3 .v0) (.v4 5 ObfZeroLeafCtx .v0 .v0))
    (.v2 (fun z => z * z) .v0)
    (.v1 9 .v0)

/-- The witness chain is well formed at width 32. -/
theorem obf_witness_tree_wf : InjWF 32 ObfZeroLeafCtx obf_witness_tree :=
  InjWF.v3 (by decide) (by decide)
    (InjWF.v5 (by decide) (by decide)
      (InjWF.v1 3 (InjWF.v0 (ObfZeroLeafCtx_ok 8)))
      (InjWF.v4 5 (by decide) (by decide) (by decide)
        (InjWF.v0 (ObfZeroLeafCtx_ok 8)) (InjWF.v0 (ObfZeroLeafCtx_ok 8))))
    (InjWF.v2 (fun z => z * z) (by decide) (by decide) (InjWF.v0 (ObfZeroLeafCtx_ok 16)))
    (InjWF.v1 9 (InjWF.v0 (ObfZeroLeafCtx_ok 32)))

/-- Witness for claim C1 at width 32, input 0xDEADBEEF. -/
theorem claimC1_roundtrip_witness :
    surjection 32 ObfZeroLeafCtx obf_witness_tree
      (injection 32 ObfZeroLeafCtx obf_witness_tree 3735928559) = 3735928559 :=
  claimC1_roundtrip 32 ObfZeroLeafCtx obf_witness_tree obf_witness_tree_wf 3735928559
    (by decide)

/-- Claim C2: over each supported width 8/16/32/64, `obf_mul_inverse_mod2n`
of an odd representable value is its multiplicative inverse modulo `2^W`. -/
theorem claimC2_mul_inverse (w num : Nat)
    (hw : w = 8 ∨ w = 16 ∨ w = 32 ∨ w = 64)
    (hodd : num % 2 = 1) (hlt : num < 2 ^ w) :
    num * obf_mul_inverse_mod2n w num % 2 ^ w = 1 := by
  have hw0 : 0 < w := by rcases hw with h | h | h | h <;> omega
  exact obf_mul_inverse_mod2n_correct w num hw0 hodd hlt

/-- Witness for claim C2: width 8, constant 5. -/
theorem claimC2_mul_inverse_witness :
    5 % 2 = 1 ∧ 5 < 2 ^ 8 ∧ 5 * obf_mul_inverse_mod2n 8 5 % 2 ^ 8 = 1 :=
  ⟨by decide, by decide, claimC2_mul_inverse 8 5 (Or.inl rfl) (by decide) (by decide)⟩

/-- The rolling counter's `CC` is a residue below `MOD` by construction. -/
theorem obf_literal_ctx_v4_CC_lt (seed MOD : Nat) (h : 0 < MOD) :
    obf_literal_ctx_v4_CC seed MOD < MOD :=
  Nat.mod_lt _ h

/-- The rolling counter's `MOD` is positive by construction (the bad value
zero is remapped to 100). -/
theorem obf_literal_ctx_v4_MOD_pos (w premodrndconst : Nat) :
    0 < obf_literal_ctx_v4_MOD w premodrndconst := by
  rw [obf_literal_ctx_v4_MOD]
  split_ifs with h
  · norm_num
  · exact Nat.pos_of_ne_zero h

/-- Witness for claim C3: seed 0, budget 10, two zero-floor siblings of
weight 100; the split returns shares `[2, 7]` whose sum stays within the
leftover budget. -/
theorem claimC3_split_budget_witness :
    obf_random_split 0 10 [⟨true, 0, 100⟩, ⟨true, 0, 100⟩] = some [2, 7] ∧
    ((([2, 7] : List Nat).sum : Int)
      ≤ 10 - (([⟨true, 0, 100⟩, ⟨true, 0, 100⟩] : List ObfDescriptor).map
          (fun e => e.min_cycles)).sum) :=
  ⟨by decide, (claimC3_split_budget 0 10 [⟨true, 0, 100⟩, ⟨true, 0, 100⟩]).1 [2, 7] (by decide)⟩

/-- Claim C7: as long as the identity strategy is eligible (its minimum
cycles fit the budget, which every call site guarantees) and it is not the
excluded version (the source only ever excludes versions 1 and 4), the
strategy selection over the six-descriptor array always succeeds: when no
recursive strategy qualifies, the fallback set contains at least the
identity, so the `sum_nr > 0` assertion never fails. -/
theorem claimC7_identity_fallback (seed : Nat) (cycles : Int) (szT : Nat) (cc : CtxCost)
    (exclude_version : Nat) (hex : exclude_version ≠ 0)
    (hcyc : (obf_injection_version0_descr cc).min_cycles ≤ cycles) :
    ∃ i, obf_random_obf_from_list seed cycles (obf_injection_descr szT cc) exclude_version
      = some i := by
  simp only [obf_random_obf_from_list]
  split_ifs with hr
  · obtain ⟨i, hres, -, -⟩ := obf_random_from_list_spec seed _ (Nat.pos_of_ne_zero hr)
    exact ⟨i, hres⟩
  · have henum : (obf_injection_descr szT cc).enum
        = [(0, obf_injection_version0_descr cc), (1, obf_injection_version1_descr cc),
           (2, obf_injection_version2_descr szT cc), (3, obf_injection_version3_descr szT cc),
           (4, obf_injection_version4_descr cc), (5, obf_injection_version5_descr szT cc)] := rfl
    have hpos : 0 < ((obf_injection_descr szT cc).enum.map (fun p =>
        if p.1 ≠ exclude_version ∧ p.2.min_cycles ≤ cycles ∧ p.2.is_recursive = false
        then p.2.weight else 0)).sum := by
      rw [henum]
      simp only [List.map_cons, List.map_nil, List.sum_cons, List.sum_nil]
      rw [if_pos ⟨Ne.symm hex, hcyc, rfl⟩]
      have hone : (obf_injection_version0_descr cc).weight = 1 := rfl
      omega
    obtain ⟨i, hres, -, -⟩ := obf_random_from_list_spec seed _ hpos
    exact ⟨i, hres⟩

/-- Witness for claim C7: one-byte width, zero budget, the zero-cost literal
context, excluding version 1. -/
theorem claimC7_identity_fallback_witness :
    ∃ i, obf_random_obf_from_list 0 0 (obf_injection_descr 1 ObfZeroLiteralContextCost) 1
      = some i :=
  claimC7_identity_fallback 0 0 1 ObfZeroLiteralContextCost 1 (by decide) (by decide)

/-- Counterexample to claim C8 as stated: the byte fold of the source is
`acc = 33*acc + byte`, not `34*acc + byte`; the two derivations differ
already on the two-byte file `[1, 1]`. -/
theorem claimC8_counterexample :
    obf_seed_from_file_line 0 [1, 1] 0 ≠ obf_seed_from_file_line_claimC8 0 [1, 1] 0 := by
  decide

/-- Claim C8 (amended): the site seed folds the build seed with the line,
folds every byte of the path with `acc = acc*32 + acc + byte` (the djb2
step `33*acc + byte`), then applies exactly one step of the LCG with
multiplier 6364136223846793005 and increment 1442695040888963407 modulo
`2^64`. -/
theorem claimC8_site_seed (buildSeed : Nat) (file : List Nat) (line : Nat) :
    obf_seed_from_file_line buildSeed file line
      = obf_seed_from_file_line_amendedC8 buildSeed file line := by
  rw [obf_seed_from_file_line, obf_seed_from_file_line_amendedC8]
  have hfun : (fun (acc : Nat) (p : Nat) => ((acc <<< 5) + acc + p) % 2 ^ 64)
      = fun (acc : Nat) (p : Nat) => (acc * 32 + acc + p) % 2 ^ 64 := by
    funext acc p
    rw [Nat.shiftLeft_eq]
  rw [hfun]

/-- Claim C10: post-decrement on `obf_var` returns a copy holding the old
logical value but leaves the variable holding the value plus one (the same
assignment as post-increment), and the pass-through `obf_var_dbg`
post-decrement behaves identically. -/
theorem claimC10_postdec (w : Nat) (c : LeafCtx) (t : InjTree) (hWF : InjWF w c t)
    (x : Nat) (hx : x < 2 ^ w) :
    obf_var_value w c t (obf_var_postdec w c t (injection w c t x)).1 = x ∧
    obf_var_value w c t (obf_var_postdec w c t (injection w c t x)).2 = (x + 1) % 2 ^ w ∧
    obf_var_dbg_postdec w x = (x, (x + 1) % 2 ^ w) := by
  have hM : 0 < 2 ^ w := Nat.two_pow_pos w
  have hval : surjection w c t (injection w c t x) = x :=
    surjection_injection_roundtrip hWF x hx
  refine ⟨?_, ?_, rfl⟩
  · simp only [obf_var_postdec, obf_var_value, hval]
    rw [Nat.mod_eq_of_lt hx]
    exact hval
  · simp only [obf_var_postdec, obf_var_value, hval]
    exact surjection_injection_roundtrip hWF _ (Nat.mod_lt _ hM)

/-- Witness for claim C10: width 8, an additive chain, value 200. -/
theorem claimC10_postdec_witness :
    obf_var_value 8 ObfZeroLeafCtx (.v1 7 .v0)
      (obf_var_postdec 8 ObfZeroLeafCtx (.v1 7 .v0)
        (injection 8 ObfZeroLeafCtx (.v1 7 .v0) 200)).1 = 200 ∧
    obf_var_value 8 ObfZeroLeafCtx (.v1 7 .v0)
      (obf_var_postdec 8 ObfZeroLeafCtx (.v1 7 .v0)
        (injection 8 ObfZeroLeafCtx (.v1 7 .v0) 200)).2 = (200 + 1) % 2 ^ 8 ∧
    obf_var_dbg_postdec 8 200 = (200, (200 + 1) % 2 ^ 8) :=
  claimC10_postdec 8 ObfZeroLeafCtx (.v1 7 .v0)
    (InjWF.v1 7 (InjWF.v0 (ObfZeroLeafCtx_ok 8))) 200 (by decide)

/-- Zeroing one entry of a weight list costs at most that entry. -/
theorem obf_list_sum_set_zero_ge : ∀ (ws : List Nat) (i : Nat),
    ws.sum ≤ (ws.set i 0).sum + ws.getD i 0 := by
  intro ws
  induction ws with
  | nil => intro i; simp
  | cons a l ih =>
    intro i
    cases i with
    | zero =>
      simp only [List.set_cons_zero, List.sum_cons, List.getD_cons_zero]
      omega
    | succ n =>
      simp only [List.set_cons_succ, List.sum_cons, List.getD_cons_succ]
      have := ih n
      omega

/-- A default-zero lookup in a list of bounded entries is bounded. -/
theorem obf_list_getD_le {ws : List Nat} {B : Nat} (h : ∀ a ∈ ws, a ≤ B) (i : Nat) :
    ws.getD i 0 ≤ B := by
  by_cases hi : i < ws.length
  · rw [List.getD_eq_getElem ws 0 hi]
    exact h _ (List.getElem_mem hi)
  · rw [List.getD_eq_default ws 0 (by omega)]
    exact Nat.zero_le B

/-- The exclusion fold of `obf_const_x` keeps entries bounded by 100, keeps
the length, and lowers the total weight by at most 100 per exclusion. -/
theorem obf_const_x_fold_facts : ∀ (ex : List Nat) (ws : List Nat), (∀ a ∈ ws, a ≤ 100) →
    (∀ a ∈ ex.foldl (fun ws e =>
        match obf_find_idx_in_list obf_candidates e with
        | some found => ws.set found 0
        | none => ws) ws, a ≤ 100) ∧
    (ex.foldl (fun ws e =>
        match obf_find_idx_in_list obf_candidates e with
        | some found => ws.set found 0
        | none => ws) ws).length = ws.length ∧
    ws.sum ≤ (ex.foldl (fun ws e =>
        match obf_find_idx_in_list obf_candidates e with
        | some found => ws.set found 0
        | none => ws) ws).sum + 100 * ex.length := by
  intro ex
  induction ex with
  | nil =>
    intro ws h
    exact ⟨h, rfl, by simp⟩
  | cons e ex ih =>
    intro ws h
    simp only [List.foldl_cons]
    rcases hfind : obf_find_idx_in_list obf_candidates e with _ | found
    · simp only [hfind]
      obtain ⟨hb, hl, hs⟩ := ih ws h
      refine ⟨hb, hl, ?_⟩
      simp only [List.length_cons]
      omega
    · simp only [hfind]
      have hset_le : ∀ a ∈ ws.set found 0, a ≤ 100 := by
        intro a ha
        rcases List.mem_or_eq_of_mem_set ha with h1 | h1
        · exact h a h1
        · omega
      obtain ⟨hb, hl, hs⟩ := ih (ws.set found 0) hset_le
      refine ⟨hb, ?_, ?_⟩
      · rw [hl, List.length_set]
      · have h1 := obf_list_sum_set_zero_ge ws found
        have h2 := obf_list_getD_le h found
        simp only [List.length_cons]
        omega

/-- With at most two exclusions, `obf_const_x` always succeeds and returns a
pool candidate: at least four of the six weights stay at 100. -/
theorem obf_const_x_spec (seed : Nat) (ex : List Nat) (hex : ex.length ≤ 2) :
    ∃ v, obf_const_x seed ex = some v ∧ v ∈ obf_candidates := by
  obtain ⟨hb, hl, hs⟩ := obf_const_x_fold_facts ex (List.replicate 6 100)
    (by intro a ha; rw [List.eq_of_mem_replicate ha])
  have h600 : (List.replicate 6 100 : List Nat).sum = 600 := by decide
  have hpos : 0 < (ex.foldl (fun ws e =>
      match obf_find_idx_in_list obf_candidates e with
      | some found => ws.set found 0
      | none => ws) (List.replicate 6 100)).sum := by omega
  obtain ⟨i, hres, hilen, -⟩ := obf_random_from_list_spec seed _ hpos
  refine ⟨obf_candidates.getD i 0, ?_, ?_⟩
  · simp only [obf_const_x]
    rw [hres]
    rfl
  · have hi6 : i < 6 := by
      rw [hl, List.length_replicate] at hilen
      exact hilen
    interval_cases i <;> decide

/-- Every candidate of the pool is odd. -/
theorem obf_candidates_odd : ∀ v ∈ obf_candidates, v % 2 = 1 := by decide

/-- `OBF_CONST_A` is a pool candidate. -/
theorem OBF_CONST_A_mem (buildSeed : Nat) : OBF_CONST_A buildSeed ∈ obf_candidates := by
  rw [OBF_CONST_A]
  obtain ⟨v, hv, hmem⟩ := obf_const_x_spec
    (obf_compile_time_prng (buildSeed ^^^ 0xcec4b8ea4b89a1a9) 1) [] (by simp)
  rw [hv]
  simpa using hmem

/-- `OBF_CONST_B` is a pool candidate. -/
theorem OBF_CONST_B_mem (buildSeed : Nat) : OBF_CONST_B buildSeed ∈ obf_candidates := by
  rw [OBF_CONST_B]
  obtain ⟨v, hv, hmem⟩ := obf_const_x_spec
    (obf_compile_time_prng (buildSeed ^^^ 0x5eec23716fa1d0aa) 1) [OBF_CONST_A buildSeed]
    (by simp)
  rw [hv]
  simpa using hmem

/-- `OBF_CONST_C` is a pool candidate. -/
theorem OBF_CONST_C_mem (buildSeed : Nat) : OBF_CONST_C buildSeed ∈ obf_candidates := by
  rw [OBF_CONST_C]
  obtain ⟨v, hv, hmem⟩ := obf_const_x_spec
    (obf_compile_time_prng (buildSeed ^^^ 0xfb2de18f982a2d55) 1)
    [OBF_CONST_A buildSeed, OBF_CONST_B buildSeed] (by simp)
  rw [hv]
  simpa using hmem

/-- Counterexample to claim C9 as stated: at build seed 0 and site seed 79
the additive strategy draws `C = 1`, which is not in the three-constant
per-build pool (the pool there is `{25, 15, 31}`); the pool of version 1 is
`{1} ∪ {A, B, C}`, not `{A, B, C}`. -/
theorem claimC9_counterexample :
    obf_injection_version1_C 0 79 = 1 ∧
    obf_injection_version1_C 0 79 ∉ [OBF_CONST_A 0, OBF_CONST_B 0, OBF_CONST_C 0] := by
  decide

/-- `obf_random_const` always returns an element of a non-empty list. -/
theorem obf_random_const_mem (seed : Nat) (lst : List Nat) (h : lst ≠ []) :
    obf_random_const seed lst ∈ lst := by
  rw [obf_random_const]
  have hlen : 0 < lst.length := List.length_pos.mpr h
  have hidx : obf_weak_random seed lst.length < lst.length := Nat.mod_lt _ hlen
  rw [List.getD_eq_getElem lst 0 hidx]
  exact List.getElem_mem hidx

/-- Claim C9 (amended): the constant `C` of the additive strategy is an odd
value drawn from the fixed four-element per-build pool `{1, OBF_CONST_A,
OBF_CONST_B, OBF_CONST_C}` (1 plus the three-constant pool derived from the
build seed with duplicates excluded), and the decode subtracts the same `C`
after the child's decode. -/
theorem claimC9_additive_constant (buildSeed seed : Nat) :
    (obf_injection_version1_C buildSeed seed = 1 ∨
     obf_injection_version1_C buildSeed seed = OBF_CONST_A buildSeed ∨
     obf_injection_version1_C buildSeed seed = OBF_CONST_B buildSeed ∨
     obf_injection_version1_C buildSeed seed = OBF_CONST_C buildSeed) ∧
    obf_injection_version1_C buildSeed seed % 2 = 1 ∧
    (∀ (w : Nat) (c : LeafCtx) (t : InjTree) (y : ObfRep),
      surjection w c (.v1 (obf_injection_version1_C buildSeed seed) t) y
        = obf_usub (2 ^ w) (surjection w c t y) (obf_injection_version1_C buildSeed seed)) := by
  have hmem : obf_injection_version1_C buildSeed seed
      ∈ obf_injection_version1_consts buildSeed := by
    rw [obf_injection_version1_C]
    exact obf_random_const_mem _ _ (by simp [obf_injection_version1_consts])
  have hdisj : obf_injection_version1_C buildSeed seed = 1 ∨
      obf_injection_version1_C buildSeed seed = OBF_CONST_A buildSeed ∨
      obf_injection_version1_C buildSeed seed = OBF_CONST_B buildSeed ∨
      obf_injection_version1_C buildSeed seed = OBF_CONST_C buildSeed := by
    simpa [obf_injection_version1_consts] using hmem
  refine ⟨hdisj, ?_, fun w c t y => by simp only [surjection]⟩
  rcases hdisj with h | h | h | h
  · rw [h]
  · rw [h]
    exact obf_candidates_odd _ (OBF_CONST_A_mem buildSeed)
  · rw [h]
    exact obf_candidates_odd _ (OBF_CONST_B_mem buildSeed)
  · rw [h]
    exact obf_candidates_odd _ (OBF_CONST_C_mem buildSeed)
